import Mathlib

/-!
Verification development for the FunctionToPiecewise module
(src/src/FunctionToPiecewise.h).

Modelling conventions:
* C++ `float` values are modelled as exact rationals (`ℚ`).
* `std::map<std::pair<float,float>, LineFunc>` is modelled as an association
  list kept sorted by the lexicographic order on the key pair, with
  first-insert-wins semantics: `std::map::insert` does nothing when the key is
  already present.  Iteration order of the map, and hence the order scanned by
  `std::find_if` in `xToy`/`yTox`, is ascending key order, which the sorted
  list reproduces.
* The construction loops `for (float x = lo; x < hi; x += xIncrement)` are
  modelled by fuel recursion guarded by the same `x < hi` test.  With exact
  arithmetic and `nSegments ≥ 1`, `lo + nSegments * xIncrement = hi` exactly,
  so the loop runs exactly `nSegments` iterations and fuel `nSegments.toNat`
  reproduces the C++ iteration count; when `hi ≤ lo` the test fails at once
  and both loops run zero iterations, again as in the C++.
* `MBED_ERROR` is fatal; a query that reaches it is modelled as `none`.
-/

/-- A linear function represented by its slope and y-intercept
(struct `LineFunc`). -/
structure LineFunc where
  slope : ℚ
  yint : ℚ
  deriving DecidableEq

/-- A point on the xy plane (struct `Point`). -/
structure Point where
  x : ℚ
  y : ℚ
  deriving DecidableEq

/-- `FunctionToPiecewise::evalLinearFunction`. -/
def evalLinearFunction (x : ℚ) (line : LineFunc) : ℚ :=
  line.slope * x + line.yint

/-- `FunctionToPiecewise::getLineFuncSlope`. -/
def getLineFuncSlope (pt1 pt2 : Point) : ℚ :=
  (pt2.y - pt1.y) / (pt2.x - pt1.x)

/-- `FunctionToPiecewise::getLineFuncYInt`  (`b = y - m x`). -/
def getLineFuncYInt (pt1 pt2 : Point) : ℚ :=
  pt1.y - getLineFuncSlope pt1 pt2 * pt1.x

/-- Lexicographic strict order on key pairs: `std::less<std::pair<float,float>>`. -/
def pairLt (a b : ℚ × ℚ) : Bool :=
  decide (a.1 < b.1 ∨ (a.1 = b.1 ∧ a.2 < b.2))

/-- The contents of one of the two `std::map` members, as a key-sorted list. -/
abbrev SegTable := List ((ℚ × ℚ) × LineFunc)

/-- `std::map::insert`: sorted insertion that keeps the existing entry when the
key is already present. -/
def mapInsert : SegTable → ℚ × ℚ → LineFunc → SegTable
  | [], k, v => [(k, v)]
  | e :: rest, k, v =>
    if pairLt k e.1 then (k, v) :: e :: rest
    else if pairLt e.1 k then e :: mapInsert rest k v
    else e :: rest

/-- One iteration of the first constructor loop: the forward entry for the
slice starting at `x`, keyed by `(x, x + xIncrement)` (the y-based branch at
lines 145-154 is dead code: lines 156-157 overwrite the key with the x pair
unconditionally). -/
def fwdEntry (f : ℚ → ℚ) (xIncrement x : ℚ) : (ℚ × ℚ) × LineFunc :=
  ((x, x + xIncrement),
    { slope := getLineFuncSlope ⟨x, f x⟩ ⟨x + xIncrement, f (x + xIncrement)⟩
      yint := getLineFuncYInt ⟨x, f x⟩ ⟨x + xIncrement, f (x + xIncrement)⟩ })

/-- One iteration of the second constructor loop: the inverse entry for the
slice starting at `x`.  Slope and intercept are `1/m` and `-b/m` computed with
the C++ expressions.  The key is the sorted pair of sampled y values; when the
two y values are equal neither branch of the C++ `if`/`else if` runs and the
key pair is read uninitialized (undefined behaviour) — the model resolves that
case to the degenerate pair `(y, y)`, which no query can match. -/
def invEntry (f : ℚ → ℚ) (xIncrement x : ℚ) : (ℚ × ℚ) × LineFunc :=
  let tempPt1 : Point := ⟨x, f x⟩
  let tempPt2 : Point := ⟨x + xIncrement, f (x + xIncrement)⟩
  ((if tempPt1.y > tempPt2.y then (tempPt2.y, tempPt1.y)
    else if tempPt2.y > tempPt1.y then (tempPt1.y, tempPt2.y)
    else (tempPt1.y, tempPt2.y)),
   { slope := 1 / getLineFuncSlope tempPt1 tempPt2
     yint := (-1 * getLineFuncYInt tempPt1 tempPt2) / getLineFuncSlope tempPt1 tempPt2 })

/-- The first constructor loop (`Set the f_of_x_fns' intervals and functions`). -/
def buildFwdLoop (f : ℚ → ℚ) (xIncrement intervalHi : ℚ) :
    Nat → ℚ → SegTable → SegTable
  | 0, _, acc => acc
  | fuel + 1, x, acc =>
    if x < intervalHi then
      buildFwdLoop f xIncrement intervalHi fuel (x + xIncrement)
        (mapInsert acc (fwdEntry f xIncrement x).1 (fwdEntry f xIncrement x).2)
    else acc

/-- The second constructor loop (`Set the f_of_y_fns' intervals and functions`). -/
def buildInvLoop (f : ℚ → ℚ) (xIncrement intervalHi : ℚ) :
    Nat → ℚ → SegTable → SegTable
  | 0, _, acc => acc
  | fuel + 1, x, acc =>
    if x < intervalHi then
      buildInvLoop f xIncrement intervalHi fuel (x + xIncrement)
        (mapInsert acc (invEntry f xIncrement x).1 (invEntry f xIncrement x).2)
    else acc

/-- The state of a `FunctionToPiecewise` object after construction (the
retained function pointer plays no further role and is omitted). -/
structure FunctionToPiecewise where
  f_of_x_fns : SegTable
  f_of_y_fns : SegTable
  deriving DecidableEq

/-- The constructor `FunctionToPiecewise::FunctionToPiecewise`. -/
def FunctionToPiecewise.construct (f : ℚ → ℚ) (nSegments : ℤ)
    (interval : ℚ × ℚ) : FunctionToPiecewise :=
  let xIncrement : ℚ := (interval.2 - interval.1) / (nSegments : ℚ)
  { f_of_x_fns := buildFwdLoop f xIncrement interval.2 nSegments.toNat interval.1 []
    f_of_y_fns := buildInvLoop f xIncrement interval.2 nSegments.toNat interval.1 [] }

/-- The membership test of the `find_if` lambdas:
`v >= fn.first.first && v < fn.first.second`. -/
def inHalfOpen (r : ℚ × ℚ) (v : ℚ) : Bool :=
  decide (v ≥ r.1 ∧ v < r.2)

/-- `FunctionToPiecewise::xToy`; reaching `MBED_ERROR` is `none`. -/
def FunctionToPiecewise.xToy (pw : FunctionToPiecewise) (x : ℚ) : Option ℚ :=
  match pw.f_of_x_fns.find? (fun fn => inHalfOpen fn.1 x) with
  | some fn => some (evalLinearFunction x fn.2)
  | none => none

/-- `FunctionToPiecewise::yTox`; reaching `MBED_ERROR` is `none`. -/
def FunctionToPiecewise.yTox (pw : FunctionToPiecewise) (y : ℚ) : Option ℚ :=
  match pw.f_of_y_fns.find? (fun fn => inHalfOpen fn.1 y) with
  | some fn => some (evalLinearFunction y fn.2)
  | none => none

/-! ### Order and map lemmas -/

lemma pairLt_asymm {a b : ℚ × ℚ} (h : pairLt a b = true) : pairLt b a = false := by
  simp only [pairLt, decide_eq_true_eq, decide_eq_false_iff_not] at h ⊢
  rintro (h' | ⟨h1', h2'⟩)
  · rcases h with h | ⟨h1, _⟩
    · exact absurd h' (lt_asymm h)
    · rw [h1] at h'; exact lt_irrefl _ h'
  · rcases h with h | ⟨_, h2⟩
    · rw [h1'] at h; exact lt_irrefl _ h
    · exact absurd h2' (lt_asymm h2)

lemma eq_of_not_pairLt {a b : ℚ × ℚ} (h1 : pairLt a b = false)
    (h2 : pairLt b a = false) : a = b := by
  simp only [pairLt, decide_eq_false_iff_not, not_or, not_and] at h1 h2
  obtain ⟨h1l, h1r⟩ := h1
  obtain ⟨h2l, h2r⟩ := h2
  have hfst : a.1 = b.1 := le_antisymm (not_lt.mp h2l) (not_lt.mp h1l)
  have hsnd : a.2 = b.2 :=
    le_antisymm (not_lt.mp (h2r hfst.symm)) (not_lt.mp (h1r hfst))
  exact Prod.ext hfst hsnd

lemma mem_mapInsert_of_mem {k : ℚ × ℚ} {v : LineFunc} :
    ∀ {acc : SegTable} {e}, e ∈ acc → e ∈ mapInsert acc k v := by
  intro acc
  induction acc with
  | nil => intro e h; simp at h
  | cons a rest ih =>
    intro e h
    rw [mapInsert]
    split
    · exact List.mem_cons_of_mem _ h
    · split
      · rcases List.mem_cons.mp h with h | h
        · exact h ▸ List.mem_cons_self _ _
        · exact List.mem_cons_of_mem _ (ih h)
      · exact h

lemma mem_of_mem_mapInsert {k : ℚ × ℚ} {v : LineFunc} :
    ∀ {acc : SegTable} {e}, e ∈ mapInsert acc k v → e ∈ acc ∨ e = (k, v) := by
  intro acc
  induction acc with
  | nil =>
    intro e h
    simp only [mapInsert, List.mem_singleton] at h
    exact Or.inr h
  | cons a rest ih =>
    intro e h
    rw [mapInsert] at h
    split at h
    · rcases List.mem_cons.mp h with h | h
      · exact Or.inr h
      · exact Or.inl h
    · split at h
      · rcases List.mem_cons.mp h with h | h
        · exact Or.inl (h ▸ List.mem_cons_self _ _)
        · rcases ih h with h | h
          · exact Or.inl (List.mem_cons_of_mem _ h)
          · exact Or.inr h
      · exact Or.inl h

lemma self_mem_mapInsert {k : ℚ × ℚ} {v : LineFunc} :
    ∀ {acc : SegTable}, (∀ e ∈ acc, e.1 ≠ k) → (k, v) ∈ mapInsert acc k v := by
  intro acc
  induction acc with
  | nil => intro _; simp [mapInsert]
  | cons a rest ih =>
    intro hfresh
    rw [mapInsert]
    split
    · exact List.mem_cons_self _ _
    · next h1 =>
      split
      · exact List.mem_cons_of_mem _
          (ih fun e he => hfresh e (List.mem_cons_of_mem _ he))
      · next h2 =>
        exact absurd
          (eq_of_not_pairLt (Bool.of_not_eq_true h2) (Bool.of_not_eq_true h1))
          (hfresh a (List.mem_cons_self _ _))

lemma mapInsert_eq_append {k : ℚ × ℚ} {v : LineFunc} :
    ∀ {acc : SegTable}, (∀ e ∈ acc, pairLt e.1 k = true) →
      mapInsert acc k v = acc ++ [(k, v)] := by
  intro acc
  induction acc with
  | nil => intro _; simp [mapInsert]
  | cons a rest ih =>
    intro hlt
    have ha := hlt a (List.mem_cons_self _ _)
    rw [mapInsert, if_neg (by simp [pairLt_asymm ha]), if_pos ha,
      ih fun e he => hlt e (List.mem_cons_of_mem _ he)]
    simp

/-! ### Characterization of the forward table -/

lemma pairLt_of_fst_lt {a b : ℚ × ℚ} (h : a.1 < b.1) : pairLt a b = true := by
  simp [pairLt, h]

lemma buildFwdLoop_eq (f : ℚ → ℚ) (inc hi : ℚ) (hinc : 0 < inc) :
    ∀ (fuel : ℕ) (x : ℚ) (acc : SegTable), hi = x + (fuel : ℚ) * inc →
      (∀ e ∈ acc, e.1.1 < x) →
      buildFwdLoop f inc hi fuel x acc =
        acc ++ (List.range fuel).map (fun i : ℕ => fwdEntry f inc (x + (i : ℚ) * inc)) := by
  intro fuel
  induction fuel with
  | zero =>
    intro x acc _ _
    simp [buildFwdLoop]
  | succ fuel ih =>
    intro x acc hhi hacc
    have hxlt : x < hi := by
      rw [hhi]
      have h0 : (0 : ℚ) < (((fuel : ℕ) : ℚ) + 1) * inc := by positivity
      push_cast
      linarith
    have hins : mapInsert acc (fwdEntry f inc x).1 (fwdEntry f inc x).2 =
        acc ++ [fwdEntry f inc x] := by
      rw [mapInsert_eq_append fun e he => pairLt_of_fst_lt (hacc e he)]
    have hmap : (List.range (fuel + 1)).map
          (fun i : ℕ => fwdEntry f inc (x + (i : ℚ) * inc)) =
        fwdEntry f inc x ::
          (List.range fuel).map
            (fun i : ℕ => fwdEntry f inc (x + inc + (i : ℚ) * inc)) := by
      rw [List.range_succ_eq_map, List.map_cons, List.map_map]
      refine List.cons_eq_cons.mpr ⟨by norm_num, ?_⟩
      apply List.map_congr_left
      intro i _
      simp only [Function.comp_apply]
      congr 1
      push_cast
      ring
    rw [buildFwdLoop, if_pos hxlt, hins,
      ih (x + inc) (acc ++ [fwdEntry f inc x])
        (by rw [hhi]; push_cast; ring)
        (by
          intro e he
          rcases List.mem_append.mp he with he | he
          · exact lt_trans (hacc e he) (by linarith)
          · simp only [List.mem_singleton] at he
            subst he
            show x < x + inc
            linarith),
      hmap]
    simp

lemma construct_f_of_x_fns (f : ℚ → ℚ) (n : ℤ) (lo hi inc : ℚ)
    (hn : 1 ≤ n) (hlohi : lo < hi) (hincdef : inc = (hi - lo) / (n : ℚ)) :
    (FunctionToPiecewise.construct f n (lo, hi)).f_of_x_fns =
      (List.range n.toNat).map (fun i : ℕ => fwdEntry f inc (lo + (i : ℚ) * inc)) := by
  have hnq : (0 : ℚ) < (n : ℚ) := by exact_mod_cast lt_of_lt_of_le zero_lt_one hn
  have hinc : 0 < inc := by
    rw [hincdef]
    exact div_pos (by linarith) hnq
  have hcast : ((n.toNat : ℕ) : ℚ) = (n : ℚ) := by
    have h := Int.toNat_of_nonneg (le_trans zero_le_one hn)
    exact_mod_cast congrArg (fun z : ℤ => (z : ℚ)) h
  have hne : (n : ℚ) ≠ 0 := ne_of_gt hnq
  have hfuel : hi = lo + ((n.toNat : ℕ) : ℚ) * inc := by
    rw [hcast, hincdef]
    field_simp
  subst hincdef
  have hres := buildFwdLoop_eq f ((hi - lo) / (n : ℚ)) hi hinc n.toNat lo [] hfuel
    (by simp)
  simpa [FunctionToPiecewise.construct] using hres

/-! ### Segment index arithmetic -/

lemma index_exists {lo inc x : ℚ} {N : ℕ} (hinc : 0 < inc) (hx1 : lo ≤ x)
    (hx2 : x < lo + (N : ℚ) * inc) :
    ∃ i : ℕ, i < N ∧ lo + (i : ℚ) * inc ≤ x ∧ x < lo + (i : ℚ) * inc + inc := by
  have hr0 : 0 ≤ (x - lo) / inc := div_nonneg (by linarith) hinc.le
  have hfl0 : 0 ≤ ⌊(x - lo) / inc⌋ := Int.floor_nonneg.mpr hr0
  have hcast : ((⌊(x - lo) / inc⌋.toNat : ℕ) : ℚ) = ((⌊(x - lo) / inc⌋ : ℤ) : ℚ) := by
    exact_mod_cast congrArg (fun z : ℤ => (z : ℚ)) (Int.toNat_of_nonneg hfl0)
  refine ⟨⌊(x - lo) / inc⌋.toNat, ?_, ?_, ?_⟩
  · have hrN : (x - lo) / inc < (N : ℚ) := by
      rw [div_lt_iff₀ hinc]
      linarith
    have hN : ⌊(x - lo) / inc⌋ < (N : ℤ) := Int.floor_lt.mpr (by exact_mod_cast hrN)
    omega
  · have h1 : ((⌊(x - lo) / inc⌋.toNat : ℕ) : ℚ) ≤ (x - lo) / inc := by
      rw [hcast]
      exact Int.floor_le _
    rw [le_div_iff₀ hinc] at h1
    linarith
  · have h2 : (x - lo) / inc < ((⌊(x - lo) / inc⌋.toNat : ℕ) : ℚ) + 1 := by
      rw [hcast]
      exact Int.lt_floor_add_one _
    rw [div_lt_iff₀ hinc] at h2
    nlinarith

lemma index_unique {lo inc x : ℚ} {i j : ℕ} (hinc : 0 < inc)
    (hi1 : lo + (i : ℚ) * inc ≤ x) (hi2 : x < lo + (i : ℚ) * inc + inc)
    (hj1 : lo + (j : ℚ) * inc ≤ x) (hj2 : x < lo + (j : ℚ) * inc + inc) : i = j := by
  by_contra hne
  rcases Nat.lt_or_ge i j with h | h
  · have hij : ((i : ℚ) + 1) ≤ (j : ℚ) := by exact_mod_cast h
    nlinarith [mul_le_mul_of_nonneg_right hij hinc.le]
  · have hj : j < i := by omega
    have hij : ((j : ℚ) + 1) ≤ (i : ℚ) := by exact_mod_cast hj
    nlinarith [mul_le_mul_of_nonneg_right hij hinc.le]

lemma inHalfOpen_fwdEntry (f : ℚ → ℚ) (inc x v : ℚ) :
    inHalfOpen (fwdEntry f inc x).1 v = true ↔ (x ≤ v ∧ v < x + inc) := by
  simp [inHalfOpen, fwdEntry, ge_iff_le]

lemma countP_range_eq_one {N i0 : ℕ} (p : ℕ → Bool) (hi0 : i0 < N)
    (h : ∀ i, i < N → (p i = true ↔ i = i0)) :
    (List.range N).countP p = 1 := by
  induction N with
  | zero => omega
  | succ N ih =>
    rw [List.range_succ, List.countP_append]
    rcases Nat.lt_or_ge i0 N with hlt | hge
    · rw [ih hlt (fun i hi => h i (Nat.lt_succ_of_lt hi))]
      have hpN : p N = false := by
        rcases Bool.eq_false_or_eq_true (p N) with hb | hb
        · have := (h N (Nat.lt_succ_self N)).mp hb
          omega
        · exact hb
      simp [List.countP_cons, hpN]
    · have hi0N : i0 = N := by omega
      have hpN : p N = true := (h N (Nat.lt_succ_self N)).mpr hi0N.symm
      have hzero : (List.range N).countP p = 0 := by
        rw [List.countP_eq_zero]
        intro i hi
        rw [List.mem_range] at hi
        intro hp
        have := (h i (Nat.lt_succ_of_lt hi)).mp hp
        omega
      rw [hzero]
      simp [List.countP_cons, hpN]

lemma xToy_eq_none_iff (pw : FunctionToPiecewise) (x : ℚ) :
    pw.xToy x = none ↔
      pw.f_of_x_fns.find? (fun fn => inHalfOpen fn.1 x) = none := by
  unfold FunctionToPiecewise.xToy
  cases pw.f_of_x_fns.find? (fun fn => inHalfOpen fn.1 x) <;> simp

lemma yTox_eq_none_iff (pw : FunctionToPiecewise) (y : ℚ) :
    pw.yTox y = none ↔
      pw.f_of_y_fns.find? (fun fn => inHalfOpen fn.1 y) = none := by
  unfold FunctionToPiecewise.yTox
  cases pw.f_of_y_fns.find? (fun fn => inHalfOpen fn.1 y) <;> simp

/-! ### Claims C1, C4, C5 -/

/-- C1: for the source function `f(x) = 2x`, segment count 1, and interval
`(0, 5)`, the forward query returns 2 on input 1 and 0 on input 0, and the
forward query on input 5 fails with the out-of-domain error. -/
theorem c1_concrete_scenario :
    (FunctionToPiecewise.construct (fun x => 2 * x) 1 (0, 5)).xToy 1 = some 2 ∧
    (FunctionToPiecewise.construct (fun x => 2 * x) 1 (0, 5)).xToy 0 = some 0 ∧
    (FunctionToPiecewise.construct (fun x => 2 * x) 1 (0, 5)).xToy 5 = none := by
  refine ⟨?_, ?_, ?_⟩ <;>
    norm_num [FunctionToPiecewise.construct, FunctionToPiecewise.xToy, buildFwdLoop,
      buildInvLoop, fwdEntry, invEntry, mapInsert, getLineFuncSlope, getLineFuncYInt,
      evalLinearFunction, inHalfOpen, List.find?]

/-- C4: for an approximator constructed with `n ≥ 1` segments over `(lo, hi)`
with `lo < hi`, the forward query fails with the out-of-domain error exactly
when `x < lo` or `x ≥ hi`; in range it returns a value (never a substituted
default). -/
theorem c4_out_of_domain_iff (f : ℚ → ℚ) (n : ℤ) (lo hi x : ℚ)
    (hn : 1 ≤ n) (hlohi : lo < hi) :
    (FunctionToPiecewise.construct f n (lo, hi)).xToy x = none ↔
      (x < lo ∨ hi ≤ x) := by
  have hnq : (0 : ℚ) < (n : ℚ) := by exact_mod_cast lt_of_lt_of_le zero_lt_one hn
  have hinc : 0 < (hi - lo) / (n : ℚ) := div_pos (by linarith) hnq
  have hcast : ((n.toNat : ℕ) : ℚ) = (n : ℚ) := by
    have h := Int.toNat_of_nonneg (le_trans zero_le_one hn)
    exact_mod_cast congrArg (fun z : ℤ => (z : ℚ)) h
  have hne : (n : ℚ) ≠ 0 := ne_of_gt hnq
  have hhiN : hi = lo + ((n.toNat : ℕ) : ℚ) * ((hi - lo) / (n : ℚ)) := by
    rw [hcast]
    field_simp
  rw [xToy_eq_none_iff, construct_f_of_x_fns f n lo hi _ hn hlohi rfl,
    List.find?_eq_none]
  constructor
  · intro hnone
    by_contra hcon
    push_neg at hcon
    obtain ⟨hx1, hx2⟩ := hcon
    obtain ⟨i0, hi0N, hi0l, hi0r⟩ := index_exists hinc hx1 (by rw [← hhiN]; exact hx2)
    exact hnone _ (List.mem_map_of_mem _ (List.mem_range.mpr hi0N))
      ((inHalfOpen_fwdEntry _ _ _ _).mpr ⟨hi0l, hi0r⟩)
  · intro hout e he hpred
    rw [List.mem_map] at he
    obtain ⟨i, hir, rfl⟩ := he
    rw [List.mem_range] at hir
    rw [inHalfOpen_fwdEntry] at hpred
    have h0 : (0 : ℚ) ≤ (i : ℚ) * ((hi - lo) / (n : ℚ)) :=
      mul_nonneg (Nat.cast_nonneg i) hinc.le
    have h2 : ((i : ℚ) + 1) ≤ ((n.toNat : ℕ) : ℚ) := by exact_mod_cast hir
    have h3 : lo + (i : ℚ) * ((hi - lo) / (n : ℚ)) + ((hi - lo) / (n : ℚ)) ≤ hi := by
      nlinarith [mul_le_mul_of_nonneg_right h2 hinc.le]
    rcases hout with hout | hout
    · linarith [hpred.1]
    · linarith [hpred.2]

/-- Witness for C4 at a concrete input. -/
theorem c4_out_of_domain_iff_witness :
    (FunctionToPiecewise.construct (fun t => t) 1 (0, 1)).xToy 2 = none ↔
      ((2 : ℚ) < 0 ∨ (1 : ℚ) ≤ 2) :=
  c4_out_of_domain_iff (fun t => t) 1 0 1 2 (by norm_num) (by norm_num)

/-- C5: with `n ≥ 1` segments over `(lo, hi)`, `lo < hi`, every `x` in
`[lo, hi)` is contained in the x-range of exactly one forward segment: the
half-open ranges tile the interval with no gaps and no overlaps. -/
theorem c5_domain_coverage (f : ℚ → ℚ) (n : ℤ) (lo hi x : ℚ)
    (hn : 1 ≤ n) (hlohi : lo < hi) (hx1 : lo ≤ x) (hx2 : x < hi) :
    ((FunctionToPiecewise.construct f n (lo, hi)).f_of_x_fns.countP
      (fun e => inHalfOpen e.1 x)) = 1 := by
  have hnq : (0 : ℚ) < (n : ℚ) := by exact_mod_cast lt_of_lt_of_le zero_lt_one hn
  have hinc : 0 < (hi - lo) / (n : ℚ) := div_pos (by linarith) hnq
  have hcast : ((n.toNat : ℕ) : ℚ) = (n : ℚ) := by
    have h := Int.toNat_of_nonneg (le_trans zero_le_one hn)
    exact_mod_cast congrArg (fun z : ℤ => (z : ℚ)) h
  have hne : (n : ℚ) ≠ 0 := ne_of_gt hnq
  have hhiN : hi = lo + ((n.toNat : ℕ) : ℚ) * ((hi - lo) / (n : ℚ)) := by
    rw [hcast]
    field_simp
  rw [construct_f_of_x_fns f n lo hi _ hn hlohi rfl, List.countP_map]
  obtain ⟨i0, hi0N, hi0l, hi0r⟩ := index_exists hinc hx1 (by rw [← hhiN]; exact hx2)
  refine countP_range_eq_one _ hi0N ?_
  intro i hiN
  simp only [Function.comp_apply]
  rw [inHalfOpen_fwdEntry]
  constructor
  · rintro ⟨h1, h2⟩
    exact index_unique hinc h1 h2 hi0l hi0r
  · rintro rfl
    exact ⟨hi0l, hi0r⟩

/-- Witness for C5 at a concrete input. -/
theorem c5_domain_coverage_witness :
    ((FunctionToPiecewise.construct (fun t => t * t) 2 (0, 4)).f_of_x_fns.countP
      (fun e => inHalfOpen e.1 3)) = 1 :=
  c5_domain_coverage (fun t => t * t) 2 0 4 3 (by norm_num) (by norm_num)
    (by norm_num) (by norm_num)

/-! ### Claim C7: construction performs no validation -/

lemma buildFwdLoop_stop (f : ℚ → ℚ) (inc hi : ℚ) :
    ∀ (fuel : ℕ) (x : ℚ) (acc : SegTable), hi ≤ x →
      buildFwdLoop f inc hi fuel x acc = acc := by
  intro fuel
  cases fuel with
  | zero => intro x acc _; rw [buildFwdLoop]
  | succ fuel => intro x acc h; rw [buildFwdLoop, if_neg (not_lt.mpr h)]

lemma buildInvLoop_stop (f : ℚ → ℚ) (inc hi : ℚ) :
    ∀ (fuel : ℕ) (x : ℚ) (acc : SegTable), hi ≤ x →
      buildInvLoop f inc hi fuel x acc = acc := by
  intro fuel
  cases fuel with
  | zero => intro x acc _; rw [buildInvLoop]
  | succ fuel => intro x acc h; rw [buildInvLoop, if_neg (not_lt.mpr h)]

/-- C7 counterexample: for the invalid interval `(5, 0)` (lo ≥ hi) the
constructor does not fail with any error; it completes and the resulting
approximator — with empty tables — is exposed to queries. -/
theorem c7_counterexample :
    FunctionToPiecewise.construct (fun x => 2 * x) 1 (5, 0) =
      { f_of_x_fns := [], f_of_y_fns := [] } ∧
    (FunctionToPiecewise.construct (fun x => 2 * x) 1 (5, 0)).xToy 3 = none := by
  constructor
  · norm_num [FunctionToPiecewise.construct, buildFwdLoop, buildInvLoop]
  · norm_num [FunctionToPiecewise.construct, FunctionToPiecewise.xToy,
      buildFwdLoop, buildInvLoop, List.find?]

/-- C7 amended: the constructor validates nothing.  For every interval with
`hi ≤ lo` (and any segment count) it silently produces an approximator whose
tables are empty, and this partially-built object is exposed: every
subsequent forward or inverse query fails. -/
theorem c7_amended_no_validation (f : ℚ → ℚ) (n : ℤ) (lo hi : ℚ) (h : hi ≤ lo) :
    (FunctionToPiecewise.construct f n (lo, hi)).f_of_x_fns = [] ∧
    (FunctionToPiecewise.construct f n (lo, hi)).f_of_y_fns = [] ∧
    (∀ v : ℚ, (FunctionToPiecewise.construct f n (lo, hi)).xToy v = none) ∧
    (∀ v : ℚ, (FunctionToPiecewise.construct f n (lo, hi)).yTox v = none) := by
  have h1 : (FunctionToPiecewise.construct f n (lo, hi)).f_of_x_fns = [] :=
    buildFwdLoop_stop f _ _ _ _ _ h
  have h2 : (FunctionToPiecewise.construct f n (lo, hi)).f_of_y_fns = [] :=
    buildInvLoop_stop f _ _ _ _ _ h
  refine ⟨h1, h2, ?_, ?_⟩
  · intro v
    rw [xToy_eq_none_iff, h1]
    rfl
  · intro v
    rw [yTox_eq_none_iff, h2]
    rfl

/-- Witness for the amended C7 at a concrete input. -/
theorem c7_amended_no_validation_witness :
    (FunctionToPiecewise.construct (fun t => t) 1 (5, 0)).f_of_x_fns = [] ∧
    (FunctionToPiecewise.construct (fun t => t) 1 (5, 0)).f_of_y_fns = [] ∧
    (∀ v : ℚ, (FunctionToPiecewise.construct (fun t => t) 1 (5, 0)).xToy v = none) ∧
    (∀ v : ℚ, (FunctionToPiecewise.construct (fun t => t) 1 (5, 0)).yTox v = none) :=
  c7_amended_no_validation (fun t => t) 1 5 0 (by norm_num)

/-! ### Claim C10: knot continuity of the forward table -/

lemma evalLinearFunction_fwdEntry_left (f : ℚ → ℚ) (inc x : ℚ) :
    evalLinearFunction x (fwdEntry f inc x).2 = f x := by
  simp only [evalLinearFunction, fwdEntry, getLineFuncYInt]
  ring

lemma evalLinearFunction_fwdEntry_right (f : ℚ → ℚ) (inc x : ℚ) (hinc : inc ≠ 0) :
    evalLinearFunction (x + inc) (fwdEntry f inc x).2 = f (x + inc) := by
  simp only [evalLinearFunction, fwdEntry, getLineFuncSlope, getLineFuncYInt]
  have hd : x + inc - x = inc := by ring
  rw [hd]
  field_simp
  ring

/-- C10: at every interior knot `x_i = lo + i·step` (`0 < i < n`) the two
adjacent forward segments are both present in the forward table and both
evaluate to `f(x_i)` there: the forward approximation is continuous at every
interior knot and interpolates the source exactly at the sample points. -/
theorem c10_knot_agreement (f : ℚ → ℚ) (n : ℤ) (lo hi : ℚ) (i : ℕ)
    (hn : 1 ≤ n) (hlohi : lo < hi) (h0 : 0 < i) (hiN : i < n.toNat) :
    fwdEntry f ((hi - lo) / (n : ℚ)) (lo + ((i : ℚ) - 1) * ((hi - lo) / (n : ℚ))) ∈
      (FunctionToPiecewise.construct f n (lo, hi)).f_of_x_fns ∧
    fwdEntry f ((hi - lo) / (n : ℚ)) (lo + (i : ℚ) * ((hi - lo) / (n : ℚ))) ∈
      (FunctionToPiecewise.construct f n (lo, hi)).f_of_x_fns ∧
    evalLinearFunction (lo + (i : ℚ) * ((hi - lo) / (n : ℚ)))
      (fwdEntry f ((hi - lo) / (n : ℚ))
        (lo + ((i : ℚ) - 1) * ((hi - lo) / (n : ℚ)))).2 =
      f (lo + (i : ℚ) * ((hi - lo) / (n : ℚ))) ∧
    evalLinearFunction (lo + (i : ℚ) * ((hi - lo) / (n : ℚ)))
      (fwdEntry f ((hi - lo) / (n : ℚ))
        (lo + (i : ℚ) * ((hi - lo) / (n : ℚ)))).2 =
      f (lo + (i : ℚ) * ((hi - lo) / (n : ℚ))) := by
  have hnq : (0 : ℚ) < (n : ℚ) := by exact_mod_cast lt_of_lt_of_le zero_lt_one hn
  have hinc : 0 < (hi - lo) / (n : ℚ) := div_pos (by linarith) hnq
  have hc : ((i - 1 : ℕ) : ℚ) = (i : ℚ) - 1 := by
    rw [Nat.cast_sub h0, Nat.cast_one]
  have harg : lo + (i : ℚ) * ((hi - lo) / (n : ℚ)) =
      (lo + ((i : ℚ) - 1) * ((hi - lo) / (n : ℚ))) + ((hi - lo) / (n : ℚ)) := by
    ring
  rw [construct_f_of_x_fns f n lo hi _ hn hlohi rfl]
  refine ⟨?_, ?_, ?_, ?_⟩
  · exact List.mem_map.mpr ⟨i - 1, List.mem_range.mpr (by omega), by rw [hc]⟩
  · exact List.mem_map.mpr ⟨i, List.mem_range.mpr hiN, rfl⟩
  · rw [harg]
    exact evalLinearFunction_fwdEntry_right f _ _ (ne_of_gt hinc)
  · exact evalLinearFunction_fwdEntry_left f _ _

/-- Witness for C10 at a concrete input. -/
theorem c10_knot_agreement_witness :
    fwdEntry (fun t => t * t) ((2 - 0) / ((2 : ℤ) : ℚ))
        (0 + (((1 : ℕ) : ℚ) - 1) * ((2 - 0) / ((2 : ℤ) : ℚ))) ∈
      (FunctionToPiecewise.construct (fun t => t * t) 2 (0, 2)).f_of_x_fns ∧
    fwdEntry (fun t => t * t) ((2 - 0) / ((2 : ℤ) : ℚ))
        (0 + ((1 : ℕ) : ℚ) * ((2 - 0) / ((2 : ℤ) : ℚ))) ∈
      (FunctionToPiecewise.construct (fun t => t * t) 2 (0, 2)).f_of_x_fns ∧
    evalLinearFunction (0 + ((1 : ℕ) : ℚ) * ((2 - 0) / ((2 : ℤ) : ℚ)))
      (fwdEntry (fun t => t * t) ((2 - 0) / ((2 : ℤ) : ℚ))
        (0 + (((1 : ℕ) : ℚ) - 1) * ((2 - 0) / ((2 : ℤ) : ℚ)))).2 =
      (fun t : ℚ => t * t) (0 + ((1 : ℕ) : ℚ) * ((2 - 0) / ((2 : ℤ) : ℚ))) ∧
    evalLinearFunction (0 + ((1 : ℕ) : ℚ) * ((2 - 0) / ((2 : ℤ) : ℚ)))
      (fwdEntry (fun t => t * t) ((2 - 0) / ((2 : ℤ) : ℚ))
        (0 + ((1 : ℕ) : ℚ) * ((2 - 0) / ((2 : ℤ) : ℚ)))).2 =
      (fun t : ℚ => t * t) (0 + ((1 : ℕ) : ℚ) * ((2 - 0) / ((2 : ℤ) : ℚ))) :=
  c10_knot_agreement (fun t => t * t) 2 0 2 1 (by norm_num) (by norm_num)
    (by norm_num) (by norm_num)

/-! ### Claim C6: disjointness of the stored ranges -/

/-- C6 counterexample: for a non-monotonic source function the inverse
table's y-ranges overlap.  With samples f(0)=0, f(1)=3, f(2)=5, f(3)=1 the
inverse table holds the ranges (0,3), (1,5), (3,5), and the value 2 lies in
both [0,3) and [1,5): two distinct stored inverse segments contain it. -/
theorem c6_counterexample :
    (FunctionToPiecewise.construct
        (fun x => if x ≤ 1 then 3 * x else if x ≤ 2 then 2 * x + 1 else 13 - 4 * x)
        3 (0, 3)).f_of_y_fns =
      [((0, 3), { slope := 1/3, yint := 0 }),
       ((1, 5), { slope := -(1/4), yint := 13/4 }),
       ((3, 5), { slope := 1/2, yint := -(1/2) })] ∧
    inHalfOpen (0, 3) 2 = true ∧ inHalfOpen (1, 5) 2 = true := by
  refine ⟨?_, by norm_num [inHalfOpen], by norm_num [inHalfOpen]⟩
  norm_num [FunctionToPiecewise.construct, buildInvLoop, invEntry, mapInsert,
    getLineFuncSlope, getLineFuncYInt, pairLt]

/-- C6 amended: the forward table's half-open x-ranges are pairwise disjoint
(a query value matches at most one forward segment); the inverse table's
y-ranges, however, need not be disjoint when the source function is not
monotonic over the interval. -/
theorem c6_amended_forward_disjoint (f : ℚ → ℚ) (n : ℤ) (lo hi : ℚ)
    (hn : 1 ≤ n) (hlohi : lo < hi) :
    (FunctionToPiecewise.construct f n (lo, hi)).f_of_x_fns.Pairwise
      (fun e1 e2 => ∀ v : ℚ,
        inHalfOpen e1.1 v = true → inHalfOpen e2.1 v = false) := by
  have hnq : (0 : ℚ) < (n : ℚ) := by exact_mod_cast lt_of_lt_of_le zero_lt_one hn
  have hinc : 0 < (hi - lo) / (n : ℚ) := div_pos (by linarith) hnq
  rw [construct_f_of_x_fns f n lo hi _ hn hlohi rfl, List.pairwise_map]
  refine List.Pairwise.imp ?_ (List.pairwise_lt_range n.toNat)
  intro i j hij v h1
  rw [inHalfOpen_fwdEntry] at h1
  rw [Bool.eq_false_iff]
  intro hcontra
  rw [inHalfOpen_fwdEntry] at hcontra
  have hij1 : ((i : ℚ) + 1) ≤ (j : ℚ) := by exact_mod_cast hij
  nlinarith [h1.2, hcontra.1, mul_le_mul_of_nonneg_right hij1 hinc.le]

/-- Witness for the amended C6 at a concrete input. -/
theorem c6_amended_forward_disjoint_witness :
    (FunctionToPiecewise.construct (fun t => t) 2 (0, 1)).f_of_x_fns.Pairwise
      (fun e1 e2 => ∀ v : ℚ,
        inHalfOpen e1.1 v = true → inHalfOpen e2.1 v = false) :=
  c6_amended_forward_disjoint (fun t => t) 2 0 1 (by norm_num) (by norm_num)

/-! ### Membership lemmas for the inverse table -/

lemma mem_buildInvLoop_of_mem (f : ℚ → ℚ) (inc hi : ℚ) :
    ∀ (fuel : ℕ) (x : ℚ) (acc : SegTable) (e), e ∈ acc →
      e ∈ buildInvLoop f inc hi fuel x acc := by
  intro fuel
  induction fuel with
  | zero => intro x acc e h; rw [buildInvLoop]; exact h
  | succ fuel ih =>
    intro x acc e h
    rw [buildInvLoop]
    split
    · exact ih _ _ _ (mem_mapInsert_of_mem h)
    · exact h

lemma mem_of_mem_buildInvLoop (f : ℚ → ℚ) (inc hi : ℚ) (hinc : 0 < inc) :
    ∀ (fuel : ℕ) (x : ℚ) (acc : SegTable) (e),
      hi = x + (fuel : ℚ) * inc →
      e ∈ buildInvLoop f inc hi fuel x acc →
      e ∈ acc ∨ ∃ i : ℕ, i < fuel ∧ e = invEntry f inc (x + (i : ℚ) * inc) := by
  intro fuel
  induction fuel with
  | zero =>
    intro x acc e _ h
    rw [buildInvLoop] at h
    exact Or.inl h
  | succ fuel ih =>
    intro x acc e hhi h
    have hxlt : x < hi := by
      rw [hhi]
      have h0 : (0 : ℚ) < (((fuel : ℕ) : ℚ) + 1) * inc := by positivity
      push_cast
      linarith
    rw [buildInvLoop, if_pos hxlt] at h
    rcases ih (x + inc) _ e (by rw [hhi]; push_cast; ring) h with h' | ⟨i, hif, hie⟩
    · rcases mem_of_mem_mapInsert h' with h'' | h''
      · exact Or.inl h''
      · refine Or.inr ⟨0, by omega, ?_⟩
        rw [h'']
        norm_num
    · refine Or.inr ⟨i + 1, by omega, ?_⟩
      rw [hie]
      congr 1
      push_cast
      ring

lemma invEntry_mem_buildInvLoop (f : ℚ → ℚ) (inc hi : ℚ) (hinc : 0 < inc) :
    ∀ (fuel : ℕ) (x : ℚ) (acc : SegTable) (j : ℕ),
      hi = x + (fuel : ℚ) * inc → j < fuel →
      (∀ e ∈ acc, e.1 ≠ (invEntry f inc (x + (j : ℚ) * inc)).1) →
      (∀ i : ℕ, i < fuel → i ≠ j →
        (invEntry f inc (x + (i : ℚ) * inc)).1 ≠
          (invEntry f inc (x + (j : ℚ) * inc)).1) →
      invEntry f inc (x + (j : ℚ) * inc) ∈ buildInvLoop f inc hi fuel x acc := by
  intro fuel
  induction fuel with
  | zero => intro x acc j _ hj; omega
  | succ fuel ih =>
    intro x acc j hhi hj hfresh hdist
    have hxlt : x < hi := by
      rw [hhi]
      have h0 : (0 : ℚ) < (((fuel : ℕ) : ℚ) + 1) * inc := by positivity
      push_cast
      linarith
    rw [buildInvLoop, if_pos hxlt]
    rcases Nat.eq_zero_or_pos j with rfl | hjpos
    · apply mem_buildInvLoop_of_mem
      have hfr : ∀ e ∈ acc, e.1 ≠ (invEntry f inc x).1 := by
        intro e he
        have h := hfresh e he
        simpa using h
      have hself := self_mem_mapInsert (v := (invEntry f inc x).2) hfr
      have hzero : invEntry f inc (x + ((0 : ℕ) : ℚ) * inc) = invEntry f inc x := by
        norm_num
      rw [hzero]
      simpa using hself
    · obtain ⟨j', rfl⟩ : ∃ j', j = j' + 1 := ⟨j - 1, by omega⟩
      have hshift : ∀ i : ℕ, invEntry f inc (x + inc + (i : ℚ) * inc) =
          invEntry f inc (x + ((i + 1 : ℕ) : ℚ) * inc) := by
        intro i
        congr 1
        push_cast
        ring
      rw [show invEntry f inc (x + ((j' + 1 : ℕ) : ℚ) * inc) =
          invEntry f inc (x + inc + (j' : ℚ) * inc) from (hshift j').symm]
      apply ih (x + inc) _ j' (by rw [hhi]; push_cast; ring) (by omega)
      · intro e he
        rw [hshift j']
        rcases mem_of_mem_mapInsert he with he' | he'
        · exact hfresh e he'
        · rw [he']
          have h := hdist 0 (by omega) (by omega)
          simpa using h
      · intro i hif hij
        rw [hshift i, hshift j']
        exact hdist (i + 1) (by omega) (by omega)

lemma construct_f_of_y_fns_subset (f : ℚ → ℚ) (n : ℤ) (lo hi inc : ℚ)
    (hn : 1 ≤ n) (hlohi : lo < hi) (hincdef : inc = (hi - lo) / (n : ℚ)) {e} :
    e ∈ (FunctionToPiecewise.construct f n (lo, hi)).f_of_y_fns →
      ∃ i : ℕ, i < n.toNat ∧ e = invEntry f inc (lo + (i : ℚ) * inc) := by
  have hnq : (0 : ℚ) < (n : ℚ) := by exact_mod_cast lt_of_lt_of_le zero_lt_one hn
  have hinc : 0 < inc := by
    rw [hincdef]
    exact div_pos (by linarith) hnq
  have hcast : ((n.toNat : ℕ) : ℚ) = (n : ℚ) := by
    have h := Int.toNat_of_nonneg (le_trans zero_le_one hn)
    exact_mod_cast congrArg (fun z : ℤ => (z : ℚ)) h
  have hne : (n : ℚ) ≠ 0 := ne_of_gt hnq
  have hfuel : hi = lo + ((n.toNat : ℕ) : ℚ) * inc := by
    rw [hcast, hincdef]
    field_simp
  subst hincdef
  intro he
  simp only [FunctionToPiecewise.construct] at he
  rcases mem_of_mem_buildInvLoop f _ hi hinc n.toNat lo [] e hfuel he with h | h
  · simp at h
  · exact h

lemma invEntry_mem_construct (f : ℚ → ℚ) (n : ℤ) (lo hi inc : ℚ) (j : ℕ)
    (hn : 1 ≤ n) (hlohi : lo < hi) (hincdef : inc = (hi - lo) / (n : ℚ))
    (hj : j < n.toNat)
    (hdist : ∀ i : ℕ, i < n.toNat → i ≠ j →
      (invEntry f inc (lo + (i : ℚ) * inc)).1 ≠
        (invEntry f inc (lo + (j : ℚ) * inc)).1) :
    invEntry f inc (lo + (j : ℚ) * inc) ∈
      (FunctionToPiecewise.construct f n (lo, hi)).f_of_y_fns := by
  have hnq : (0 : ℚ) < (n : ℚ) := by exact_mod_cast lt_of_lt_of_le zero_lt_one hn
  have hinc : 0 < inc := by
    rw [hincdef]
    exact div_pos (by linarith) hnq
  have hcast : ((n.toNat : ℕ) : ℚ) = (n : ℚ) := by
    have h := Int.toNat_of_nonneg (le_trans zero_le_one hn)
    exact_mod_cast congrArg (fun z : ℤ => (z : ℚ)) h
  have hne : (n : ℚ) ≠ 0 := ne_of_gt hnq
  have hfuel : hi = lo + ((n.toNat : ℕ) : ℚ) * inc := by
    rw [hcast, hincdef]
    field_simp
  subst hincdef
  simp only [FunctionToPiecewise.construct]
  exact invEntry_mem_buildInvLoop f _ hi hinc n.toNat lo [] j hfuel hj (by simp) hdist

/-! ### Entries built from a linear source function -/

lemma getLineFuncSlope_linear (m b inc x : ℚ) (hinc : inc ≠ 0) :
    getLineFuncSlope ⟨x, m * x + b⟩ ⟨x + inc, m * (x + inc) + b⟩ = m := by
  unfold getLineFuncSlope
  have hd : x + inc - x = inc := by ring
  simp only
  rw [hd]
  field_simp
  ring

lemma getLineFuncYInt_linear (m b inc x : ℚ) (hinc : inc ≠ 0) :
    getLineFuncYInt ⟨x, m * x + b⟩ ⟨x + inc, m * (x + inc) + b⟩ = b := by
  unfold getLineFuncYInt
  rw [getLineFuncSlope_linear m b inc x hinc]
  simp only
  ring

lemma fwdEntry_linear (m b inc x : ℚ) (hinc : inc ≠ 0) :
    fwdEntry (fun t => m * t + b) inc x =
      ((x, x + inc), { slope := m, yint := b }) := by
  simp only [fwdEntry]
  rw [getLineFuncSlope_linear m b inc x hinc, getLineFuncYInt_linear m b inc x hinc]

lemma invEntry_linear_snd (m b inc x : ℚ) (hinc : inc ≠ 0) :
    (invEntry (fun t => m * t + b) inc x).2 =
      { slope := 1 / m, yint := -b / m } := by
  simp only [invEntry]
  rw [getLineFuncSlope_linear m b inc x hinc, getLineFuncYInt_linear m b inc x hinc]
  simp only [LineFunc.mk.injEq]
  exact ⟨trivial, by ring⟩

lemma invEntry_linear_key_pos (m b inc x : ℚ) (hm : 0 < m) (hinc : 0 < inc) :
    (invEntry (fun t => m * t + b) inc x).1 = (m * x + b, m * (x + inc) + b) := by
  have hlt : m * x + b < m * (x + inc) + b := by nlinarith
  simp only [invEntry]
  rw [if_neg (not_lt.mpr hlt.le), if_pos hlt]

lemma invEntry_linear_key_neg (m b inc x : ℚ) (hm : m < 0) (hinc : 0 < inc) :
    (invEntry (fun t => m * t + b) inc x).1 = (m * (x + inc) + b, m * x + b) := by
  have hlt : m * (x + inc) + b < m * x + b := by nlinarith
  simp only [invEntry]
  rw [if_pos hlt]

lemma linear_grid_inj {m inc : ℚ} (hm : m ≠ 0) (hinc : inc ≠ 0) {lo b : ℚ} {i j : ℕ}
    (h : m * (lo + (i : ℚ) * inc) + b = m * (lo + (j : ℚ) * inc) + b) : i = j := by
  have h1 : m * inc * (i : ℚ) = m * inc * (j : ℚ) := by linear_combination h
  have h2 : (i : ℚ) = (j : ℚ) := mul_left_cancel₀ (mul_ne_zero hm hinc) h1
  exact_mod_cast h2

/-! ### Claim C2: linear exactness -/

/-- C2 counterexample: for the strictly linear decreasing source function
`f(x) = -1·x + 0`, one segment, interval `(0, 5)`: the forward query at
`x = 0` returns `f(0) = 0`, but the inverse query applied to `f(0) = 0`
fails — 0 is the excluded upper endpoint of the single inverse range
`[-5, 0)` — so the inverse does not recover every `x` in `[lo, hi)`. -/
theorem c2_counterexample :
    (FunctionToPiecewise.construct (fun t => -1 * t + 0) 1 (0, 5)).xToy 0 =
      some (-1 * 0 + 0) ∧
    (FunctionToPiecewise.construct (fun t => -1 * t + 0) 1 (0, 5)).yTox
      (-1 * 0 + 0) = none := by
  constructor <;>
    norm_num [FunctionToPiecewise.construct, FunctionToPiecewise.xToy,
      FunctionToPiecewise.yTox, buildFwdLoop, buildInvLoop, fwdEntry, invEntry,
      mapInsert, getLineFuncSlope, getLineFuncYInt, evalLinearFunction, inHalfOpen,
      List.find?]

/-- C2 amended: for `f(x) = m·x + b` with `m ≠ 0`, any `n ≥ 1` and `lo < hi`,
the forward query equals `f(x)` exactly for every `x ∈ [lo, hi)`, and the
inverse query applied to `f(x)` recovers `x` exactly for every such `x` when
`m > 0`, and for every such `x` with `lo < x` when `m < 0`; in the remaining
case (`m < 0`, `x = lo`) the inverse query fails out-of-range, because `f(lo)`
is the excluded upper endpoint of the topmost inverse y-range. -/
theorem c2_linear_exactness (m b : ℚ) (n : ℤ) (lo hi x : ℚ)
    (hm : m ≠ 0) (hn : 1 ≤ n) (hlohi : lo < hi) (hx1 : lo ≤ x) (hx2 : x < hi) :
    (FunctionToPiecewise.construct (fun t => m * t + b) n (lo, hi)).xToy x =
      some (m * x + b) ∧
    ((0 < m ∨ lo < x) →
      (FunctionToPiecewise.construct (fun t => m * t + b) n (lo, hi)).yTox
        (m * x + b) = some x) ∧
    (m < 0 →
      (FunctionToPiecewise.construct (fun t => m * t + b) n (lo, hi)).yTox
        (m * lo + b) = none) := by
  have hnq : (0 : ℚ) < (n : ℚ) := by exact_mod_cast lt_of_lt_of_le zero_lt_one hn
  have hinc : 0 < (hi - lo) / (n : ℚ) := div_pos (by linarith) hnq
  have hcast : ((n.toNat : ℕ) : ℚ) = (n : ℚ) := by
    have h := Int.toNat_of_nonneg (le_trans zero_le_one hn)
    exact_mod_cast congrArg (fun z : ℤ => (z : ℚ)) h
  have hne : (n : ℚ) ≠ 0 := ne_of_gt hnq
  have hhiN : hi = lo + ((n.toNat : ℕ) : ℚ) * ((hi - lo) / (n : ℚ)) := by
    rw [hcast]
    field_simp
  set inc := (hi - lo) / (n : ℚ) with hincdef
  have hincne : inc ≠ 0 := ne_of_gt hinc
  have hx2' : x < lo + ((n.toNat : ℕ) : ℚ) * inc := by rw [← hhiN]; exact hx2
  obtain ⟨i0, hi0N, hi0l, hi0r⟩ := index_exists hinc hx1 hx2'
  have hfwd : (FunctionToPiecewise.construct (fun t => m * t + b) n
      (lo, hi)).xToy x = some (m * x + b) := by
    have hmem : fwdEntry (fun t => m * t + b) inc (lo + (i0 : ℚ) * inc) ∈
        (FunctionToPiecewise.construct (fun t => m * t + b) n (lo, hi)).f_of_x_fns := by
      rw [construct_f_of_x_fns _ n lo hi inc hn hlohi hincdef]
      exact List.mem_map.mpr ⟨i0, List.mem_range.mpr hi0N, rfl⟩
    have hsome : ∃ fn, ((FunctionToPiecewise.construct (fun t => m * t + b) n
        (lo, hi)).f_of_x_fns.find? (fun fn => inHalfOpen fn.1 x)) = some fn := by
      rw [← Option.isSome_iff_exists, List.find?_isSome]
      exact ⟨_, hmem, (inHalfOpen_fwdEntry _ _ _ _).mpr ⟨hi0l, hi0r⟩⟩
    obtain ⟨fn, hfn⟩ := hsome
    obtain ⟨i, hiN, hi_eq⟩ : ∃ i : ℕ, i < n.toNat ∧
        fn = fwdEntry (fun t => m * t + b) inc (lo + (i : ℚ) * inc) := by
      have hfnmem := List.mem_of_find?_eq_some hfn
      rw [construct_f_of_x_fns _ n lo hi inc hn hlohi hincdef, List.mem_map] at hfnmem
      obtain ⟨i, hir, hieq⟩ := hfnmem
      exact ⟨i, List.mem_range.mp hir, hieq.symm⟩
    unfold FunctionToPiecewise.xToy
    rw [hfn, hi_eq, fwdEntry_linear m b inc _ hincne]
    simp [evalLinearFunction]
  have hally : ∀ fn ∈ (FunctionToPiecewise.construct (fun t => m * t + b) n
      (lo, hi)).f_of_y_fns, fn.2 = { slope := 1 / m, yint := -b / m } := by
    intro fn hfnm
    obtain ⟨i, hiN, rfl⟩ :=
      construct_f_of_y_fns_subset _ n lo hi inc hn hlohi hincdef hfnm
    exact invEntry_linear_snd m b inc _ hincne
  have hkeydist_pos : 0 < m → ∀ j : ℕ, j < n.toNat → ∀ i : ℕ, i < n.toNat → i ≠ j →
      (invEntry (fun t => m * t + b) inc (lo + (i : ℚ) * inc)).1 ≠
        (invEntry (fun t => m * t + b) inc (lo + (j : ℚ) * inc)).1 := by
    intro hmp j _ i _ hij hkeq
    rw [invEntry_linear_key_pos m b inc _ hmp hinc,
      invEntry_linear_key_pos m b inc _ hmp hinc] at hkeq
    have hfst : m * (lo + (i : ℚ) * inc) + b = m * (lo + (j : ℚ) * inc) + b := by
      simpa using congrArg Prod.fst hkeq
    exact hij (linear_grid_inj hm hincne hfst)
  have hkeydist_neg : m < 0 → ∀ j : ℕ, j < n.toNat → ∀ i : ℕ, i < n.toNat → i ≠ j →
      (invEntry (fun t => m * t + b) inc (lo + (i : ℚ) * inc)).1 ≠
        (invEntry (fun t => m * t + b) inc (lo + (j : ℚ) * inc)).1 := by
    intro hmn j _ i _ hij hkeq
    rw [invEntry_linear_key_neg m b inc _ hmn hinc,
      invEntry_linear_key_neg m b inc _ hmn hinc] at hkeq
    have hfst : m * (lo + (i : ℚ) * inc + inc) + b =
        m * (lo + (j : ℚ) * inc + inc) + b := by
      simpa using congrArg Prod.fst hkeq
    have hfst' : m * ((lo + inc) + (i : ℚ) * inc) + b =
        m * ((lo + inc) + (j : ℚ) * inc) + b := by
      linear_combination hfst
    exact hij (linear_grid_inj hm hincne hfst')
  have hmatch : (0 < m ∨ lo < x) →
      ∃ fn, ((FunctionToPiecewise.construct (fun t => m * t + b) n
        (lo, hi)).f_of_y_fns.find? (fun fn => inHalfOpen fn.1 (m * x + b))) =
        some fn := by
    intro hcase
    rw [← Option.isSome_iff_exists, List.find?_isSome]
    rcases hm.lt_or_lt with hmn | hmp
    · have hlox : lo < x := by
        rcases hcase with hc | hc
        · linarith
        · exact hc
      rcases eq_or_lt_of_le hi0l with heq | hlt
      · have hi0pos : 0 < i0 := by
          rcases Nat.eq_zero_or_pos i0 with h0 | h0
          · subst h0
            simp at heq
            linarith
          · exact h0
        have hc1 : ((i0 - 1 : ℕ) : ℚ) = (i0 : ℚ) - 1 := by
          rw [Nat.cast_sub hi0pos, Nat.cast_one]
        refine ⟨invEntry (fun t => m * t + b) inc (lo + ((i0 - 1 : ℕ) : ℚ) * inc),
          invEntry_mem_construct _ n lo hi inc (i0 - 1) hn hlohi hincdef (by omega)
            (fun i hiN hij => hkeydist_neg hmn (i0 - 1) (by omega) i hiN hij), ?_⟩
        rw [invEntry_linear_key_neg m b inc _ hmn hinc]
        simp only [inHalfOpen, decide_eq_true_eq, ge_iff_le]
        rw [hc1]
        have hxeq : lo + ((i0 : ℚ) - 1) * inc + inc = x := by
          rw [← heq]
          ring
        constructor
        · rw [hxeq]
        · have hxgt : lo + ((i0 : ℚ) - 1) * inc < x := by
            rw [← heq]
            nlinarith
          nlinarith
      · refine ⟨invEntry (fun t => m * t + b) inc (lo + (i0 : ℚ) * inc),
          invEntry_mem_construct _ n lo hi inc i0 hn hlohi hincdef hi0N
            (fun i hiN hij => hkeydist_neg hmn i0 hi0N i hiN hij), ?_⟩
        rw [invEntry_linear_key_neg m b inc _ hmn hinc]
        simp only [inHalfOpen, decide_eq_true_eq, ge_iff_le]
        constructor
        · nlinarith [hi0r]
        · nlinarith [hlt]
    · refine ⟨invEntry (fun t => m * t + b) inc (lo + (i0 : ℚ) * inc),
        invEntry_mem_construct _ n lo hi inc i0 hn hlohi hincdef hi0N
          (fun i hiN hij => hkeydist_pos hmp i0 hi0N i hiN hij), ?_⟩
      rw [invEntry_linear_key_pos m b inc _ hmp hinc]
      simp only [inHalfOpen, decide_eq_true_eq, ge_iff_le]
      exact ⟨by nlinarith [hi0l], by nlinarith [hi0r]⟩
  have hinvsome : (0 < m ∨ lo < x) →
      (FunctionToPiecewise.construct (fun t => m * t + b) n (lo, hi)).yTox
        (m * x + b) = some x := by
    intro hcase
    obtain ⟨fn, hfn⟩ := hmatch hcase
    unfold FunctionToPiecewise.yTox
    rw [hfn]
    show some (evalLinearFunction (m * x + b) fn.2) = some x
    rw [hally fn (List.mem_of_find?_eq_some hfn)]
    simp only [evalLinearFunction, Option.some.injEq]
    field_simp
  have hinvnone : m < 0 →
      (FunctionToPiecewise.construct (fun t => m * t + b) n (lo, hi)).yTox
        (m * lo + b) = none := by
    intro hmn
    rw [yTox_eq_none_iff, List.find?_eq_none]
    intro e he
    obtain ⟨i, hiN, rfl⟩ :=
      construct_f_of_y_fns_subset _ n lo hi inc hn hlohi hincdef he
    rw [invEntry_linear_key_neg m b inc _ hmn hinc]
    simp only [inHalfOpen, decide_eq_true_eq, ge_iff_le, not_and, not_lt]
    intro _
    have hnn : (0 : ℚ) ≤ (i : ℚ) * inc := mul_nonneg (Nat.cast_nonneg i) hinc.le
    nlinarith
  exact ⟨hfwd, hinvsome, hinvnone⟩

/-! ### Round-trip helpers -/

lemma grid_chain {y : ℕ → ℚ} {N : ℕ} (h : ∀ i : ℕ, i + 1 ≤ N → y i < y (i + 1)) :
    ∀ i j : ℕ, i < j → j ≤ N → y i < y j := by
  intro i j hij hjN
  induction j with
  | zero => omega
  | succ j ih =>
    rcases Nat.lt_or_ge i j with h' | h'
    · exact lt_trans (ih h' (by omega)) (h j (by omega))
    · have hj : i = j := by omega
      subst hj
      exact h i (by omega)

lemma grid_chain_rev {y : ℕ → ℚ} {N : ℕ} (h : ∀ i : ℕ, i + 1 ≤ N → y (i + 1) < y i) :
    ∀ i j : ℕ, i < j → j ≤ N → y j < y i := by
  intro i j hij hjN
  induction j with
  | zero => omega
  | succ j ih =>
    rcases Nat.lt_or_ge i j with h' | h'
    · exact lt_trans (h j (by omega)) (ih h' (by omega))
    · have hj : i = j := by omega
      subst hj
      exact h i (by omega)

lemma evalLinearFunction_fwdEntry_expand (f : ℚ → ℚ) (inc x v : ℚ) (hinc : inc ≠ 0) :
    evalLinearFunction v (fwdEntry f inc x).2 =
      f x + (f (x + inc) - f x) / inc * (v - x) := by
  simp only [evalLinearFunction, fwdEntry, getLineFuncSlope, getLineFuncYInt]
  have hd : x + inc - x = inc := by ring
  rw [hd]
  field_simp
  ring

lemma inv_cancel_fwdEntry (f : ℚ → ℚ) (inc x v : ℚ) (hinc : inc ≠ 0)
    (hs : f (x + inc) - f x ≠ 0) :
    evalLinearFunction (evalLinearFunction v (fwdEntry f inc x).2)
      (invEntry f inc x).2 = v := by
  simp only [evalLinearFunction, fwdEntry, invEntry, getLineFuncSlope, getLineFuncYInt]
  have hd : x + inc - x = inc := by ring
  rw [hd]
  have hq : (f (x + inc) - f x) / inc ≠ 0 := div_ne_zero hs hinc
  field_simp
  ring

lemma invEntry_key_of_lt (f : ℚ → ℚ) (inc x : ℚ) (h : f x < f (x + inc)) :
    (invEntry f inc x).1 = (f x, f (x + inc)) := by
  simp only [invEntry]
  rw [if_neg (not_lt.mpr h.le), if_pos h]

lemma invEntry_key_of_gt (f : ℚ → ℚ) (inc x : ℚ) (h : f (x + inc) < f x) :
    (invEntry f inc x).1 = (f (x + inc), f x) := by
  simp only [invEntry]
  rw [if_pos h]

lemma xToy_construct_eq (f : ℚ → ℚ) (n : ℤ) (lo hi inc x : ℚ) (i0 : ℕ)
    (hn : 1 ≤ n) (hlohi : lo < hi) (hincdef : inc = (hi - lo) / (n : ℚ))
    (hi0N : i0 < n.toNat) (hi0l : lo + (i0 : ℚ) * inc ≤ x)
    (hi0r : x < lo + (i0 : ℚ) * inc + inc) :
    (FunctionToPiecewise.construct f n (lo, hi)).xToy x =
      some (evalLinearFunction x (fwdEntry f inc (lo + (i0 : ℚ) * inc)).2) := by
  have hnq : (0 : ℚ) < (n : ℚ) := by exact_mod_cast lt_of_lt_of_le zero_lt_one hn
  have hinc : 0 < inc := by
    rw [hincdef]
    exact div_pos (by linarith) hnq
  have hmem : fwdEntry f inc (lo + (i0 : ℚ) * inc) ∈
      (FunctionToPiecewise.construct f n (lo, hi)).f_of_x_fns := by
    rw [construct_f_of_x_fns f n lo hi inc hn hlohi hincdef]
    exact List.mem_map.mpr ⟨i0, List.mem_range.mpr hi0N, rfl⟩
  have hsome : ∃ fn, ((FunctionToPiecewise.construct f n
      (lo, hi)).f_of_x_fns.find? (fun fn => inHalfOpen fn.1 x)) = some fn := by
    rw [← Option.isSome_iff_exists, List.find?_isSome]
    exact ⟨_, hmem, (inHalfOpen_fwdEntry _ _ _ _).mpr ⟨hi0l, hi0r⟩⟩
  obtain ⟨fn, hfn⟩ := hsome
  have hfnpred := List.find?_some hfn
  have hfnmem := List.mem_of_find?_eq_some hfn
  rw [construct_f_of_x_fns f n lo hi inc hn hlohi hincdef, List.mem_map] at hfnmem
  obtain ⟨i, hir, hieq⟩ := hfnmem
  subst hieq
  rw [inHalfOpen_fwdEntry] at hfnpred
  have hii0 : i = i0 := index_unique hinc hfnpred.1 hfnpred.2 hi0l hi0r
  subst hii0
  unfold FunctionToPiecewise.xToy
  rw [hfn]

lemma yTox_roundtrip_increasing (f : ℚ → ℚ) (n : ℤ) (lo hi inc x : ℚ) (i0 : ℕ)
    (hn : 1 ≤ n) (hlohi : lo < hi) (hincdef : inc = (hi - lo) / (n : ℚ))
    (hadj : ∀ i : ℕ, i + 1 ≤ n.toNat →
      f (lo + (i : ℚ) * inc) < f (lo + (i : ℚ) * inc + inc))
    (hi0N : i0 < n.toNat) (hi0l : lo + (i0 : ℚ) * inc ≤ x)
    (hi0r : x < lo + (i0 : ℚ) * inc + inc) :
    (FunctionToPiecewise.construct f n (lo, hi)).yTox
      (evalLinearFunction x (fwdEntry f inc (lo + (i0 : ℚ) * inc)).2) = some x := by
  have hnq : (0 : ℚ) < (n : ℚ) := by exact_mod_cast lt_of_lt_of_le zero_lt_one hn
  have hinc : 0 < inc := by
    rw [hincdef]
    exact div_pos (by linarith) hnq
  have hincne : inc ≠ 0 := ne_of_gt hinc
  have hstep : ∀ i : ℕ, lo + ((i + 1 : ℕ) : ℚ) * inc = lo + (i : ℚ) * inc + inc := by
    intro i
    push_cast
    ring
  have hchain : ∀ i j : ℕ, i < j → j ≤ n.toNat →
      f (lo + (i : ℚ) * inc) < f (lo + (j : ℚ) * inc) := by
    refine grid_chain ?_
    intro i hiN
    rw [hstep i]
    exact hadj i hiN
  have hchain_le : ∀ i j : ℕ, i ≤ j → j ≤ n.toNat →
      f (lo + (i : ℚ) * inc) ≤ f (lo + (j : ℚ) * inc) := by
    intro i j hij hjN
    rcases eq_or_lt_of_le hij with rfl | hlt
    · exact le_refl _
    · exact (hchain i j hlt hjN).le
  have hs0 : f (lo + (i0 : ℚ) * inc) < f (lo + (i0 : ℚ) * inc + inc) :=
    hadj i0 (by omega)
  have hsne : f (lo + (i0 : ℚ) * inc + inc) - f (lo + (i0 : ℚ) * inc) ≠ 0 :=
    ne_of_gt (sub_pos.mpr hs0)
  have hyb : f (lo + (i0 : ℚ) * inc) ≤
        evalLinearFunction x (fwdEntry f inc (lo + (i0 : ℚ) * inc)).2 ∧
      evalLinearFunction x (fwdEntry f inc (lo + (i0 : ℚ) * inc)).2 <
        f (lo + (i0 : ℚ) * inc + inc) := by
    rw [evalLinearFunction_fwdEntry_expand f inc _ x hincne]
    have hspos : 0 < (f (lo + (i0 : ℚ) * inc + inc) - f (lo + (i0 : ℚ) * inc)) / inc :=
      div_pos (by linarith) hinc
    have hsd : (f (lo + (i0 : ℚ) * inc + inc) - f (lo + (i0 : ℚ) * inc)) / inc * inc =
        f (lo + (i0 : ℚ) * inc + inc) - f (lo + (i0 : ℚ) * inc) :=
      div_mul_cancel₀ _ hincne
    constructor
    · nlinarith [mul_nonneg hspos.le (sub_nonneg.mpr hi0l)]
    · nlinarith [mul_lt_mul_of_pos_left
        (show x - (lo + (i0 : ℚ) * inc) < inc by linarith) hspos, hsd]
  have hkeyi : ∀ i : ℕ, i < n.toNat → (invEntry f inc (lo + (i : ℚ) * inc)).1 =
      (f (lo + (i : ℚ) * inc), f (lo + (i : ℚ) * inc + inc)) := fun i hiN =>
    invEntry_key_of_lt f inc _ (hadj i hiN)
  have hkeydist : ∀ i : ℕ, i < n.toNat → i ≠ i0 →
      (invEntry f inc (lo + (i : ℚ) * inc)).1 ≠
        (invEntry f inc (lo + (i0 : ℚ) * inc)).1 := by
    intro i hiN hne' hkeq
    rw [hkeyi i hiN, hkeyi i0 hi0N] at hkeq
    have hfst : f (lo + (i : ℚ) * inc) = f (lo + (i0 : ℚ) * inc) := by
      simpa using congrArg Prod.fst hkeq
    rcases Nat.lt_trichotomy i i0 with h' | h' | h'
    · exact absurd hfst (ne_of_lt (hchain i i0 h' (by omega)))
    · exact hne' h'
    · exact absurd hfst (ne_of_gt (hchain i0 i h' (by omega)))
  have hmem : invEntry f inc (lo + (i0 : ℚ) * inc) ∈
      (FunctionToPiecewise.construct f n (lo, hi)).f_of_y_fns :=
    invEntry_mem_construct f n lo hi inc i0 hn hlohi hincdef hi0N hkeydist
  have hsome : ∃ fn, ((FunctionToPiecewise.construct f n (lo, hi)).f_of_y_fns.find?
      (fun fn => inHalfOpen fn.1
        (evalLinearFunction x (fwdEntry f inc (lo + (i0 : ℚ) * inc)).2))) =
      some fn := by
    rw [← Option.isSome_iff_exists, List.find?_isSome]
    refine ⟨_, hmem, ?_⟩
    rw [hkeyi i0 hi0N]
    simp only [inHalfOpen, decide_eq_true_eq, ge_iff_le]
    exact ⟨hyb.1, hyb.2⟩
  obtain ⟨fn, hfn⟩ := hsome
  have hfnpred := List.find?_some hfn
  obtain ⟨i, hiN, hieq⟩ := construct_f_of_y_fns_subset f n lo hi inc hn hlohi hincdef
    (List.mem_of_find?_eq_some hfn)
  subst hieq
  rw [hkeyi i hiN] at hfnpred
  simp only [inHalfOpen, decide_eq_true_eq, ge_iff_le] at hfnpred
  have hii0 : i = i0 := by
    rcases Nat.lt_trichotomy i i0 with h' | h' | h'
    · have h1 : f (lo + (i : ℚ) * inc + inc) ≤ f (lo + (i0 : ℚ) * inc) := by
        rw [← hstep i]
        exact hchain_le (i + 1) i0 (by omega) (by omega)
      linarith [hfnpred.2, hyb.1]
    · exact h'
    · have h1 : f (lo + (i0 : ℚ) * inc + inc) ≤ f (lo + (i : ℚ) * inc) := by
        rw [← hstep i0]
        exact hchain_le (i0 + 1) i (by omega) (by omega)
      linarith [hfnpred.1, hyb.2]
  subst hii0
  unfold FunctionToPiecewise.yTox
  rw [hfn]
  show some (evalLinearFunction
      (evalLinearFunction x (fwdEntry f inc (lo + (i : ℚ) * inc)).2)
      (invEntry f inc (lo + (i : ℚ) * inc)).2) = some x
  exact congrArg some (inv_cancel_fwdEntry f inc _ x hincne hsne)

lemma yTox_roundtrip_decreasing (f : ℚ → ℚ) (n : ℤ) (lo hi inc x : ℚ) (i0 : ℕ)
    (hn : 1 ≤ n) (hlohi : lo < hi) (hincdef : inc = (hi - lo) / (n : ℚ))
    (hadj : ∀ i : ℕ, i + 1 ≤ n.toNat →
      f (lo + (i : ℚ) * inc + inc) < f (lo + (i : ℚ) * inc))
    (hx1 : lo < x)
    (hi0N : i0 < n.toNat) (hi0l : lo + (i0 : ℚ) * inc ≤ x)
    (hi0r : x < lo + (i0 : ℚ) * inc + inc) :
    (FunctionToPiecewise.construct f n (lo, hi)).yTox
      (evalLinearFunction x (fwdEntry f inc (lo + (i0 : ℚ) * inc)).2) = some x := by
  have hnq : (0 : ℚ) < (n : ℚ) := by exact_mod_cast lt_of_lt_of_le zero_lt_one hn
  have hinc : 0 < inc := by
    rw [hincdef]
    exact div_pos (by linarith) hnq
  have hincne : inc ≠ 0 := ne_of_gt hinc
  have hstep : ∀ i : ℕ, lo + ((i + 1 : ℕ) : ℚ) * inc = lo + (i : ℚ) * inc + inc := by
    intro i
    push_cast
    ring
  have hchain : ∀ i j : ℕ, i < j → j ≤ n.toNat →
      f (lo + (j : ℚ) * inc) < f (lo + (i : ℚ) * inc) := by
    refine grid_chain_rev ?_
    intro i hiN
    rw [hstep i]
    exact hadj i hiN
  have hchain_le : ∀ i j : ℕ, i ≤ j → j ≤ n.toNat →
      f (lo + (j : ℚ) * inc) ≤ f (lo + (i : ℚ) * inc) := by
    intro i j hij hjN
    rcases eq_or_lt_of_le hij with rfl | hlt
    · exact le_refl _
    · exact (hchain i j hlt hjN).le
  have hs0 : f (lo + (i0 : ℚ) * inc + inc) < f (lo + (i0 : ℚ) * inc) :=
    hadj i0 (by omega)
  have hsne : f (lo + (i0 : ℚ) * inc + inc) - f (lo + (i0 : ℚ) * inc) ≠ 0 :=
    ne_of_lt (sub_neg.mpr hs0)
  have hyb : f (lo + (i0 : ℚ) * inc + inc) <
        evalLinearFunction x (fwdEntry f inc (lo + (i0 : ℚ) * inc)).2 ∧
      evalLinearFunction x (fwdEntry f inc (lo + (i0 : ℚ) * inc)).2 ≤
        f (lo + (i0 : ℚ) * inc) := by
    rw [evalLinearFunction_fwdEntry_expand f inc _ x hincne]
    have hsneg : (f (lo + (i0 : ℚ) * inc + inc) - f (lo + (i0 : ℚ) * inc)) / inc < 0 :=
      div_neg_of_neg_of_pos (by linarith) hinc
    have hsd : (f (lo + (i0 : ℚ) * inc + inc) - f (lo + (i0 : ℚ) * inc)) / inc * inc =
        f (lo + (i0 : ℚ) * inc + inc) - f (lo + (i0 : ℚ) * inc) :=
      div_mul_cancel₀ _ hincne
    constructor
    · nlinarith [mul_lt_mul_of_neg_left
        (show x - (lo + (i0 : ℚ) * inc) < inc by linarith) hsneg, hsd]
    · nlinarith [mul_nonneg (neg_nonneg.mpr hsneg.le) (sub_nonneg.mpr hi0l)]
  have hkeyi : ∀ i : ℕ, i < n.toNat → (invEntry f inc (lo + (i : ℚ) * inc)).1 =
      (f (lo + (i : ℚ) * inc + inc), f (lo + (i : ℚ) * inc)) := fun i hiN =>
    invEntry_key_of_gt f inc _ (hadj i hiN)
  have hkeydist : ∀ j : ℕ, j < n.toNat → ∀ i : ℕ, i < n.toNat → i ≠ j →
      (invEntry f inc (lo + (i : ℚ) * inc)).1 ≠
        (invEntry f inc (lo + (j : ℚ) * inc)).1 := by
    intro j hjN i hiN hne' hkeq
    rw [hkeyi i hiN, hkeyi j hjN] at hkeq
    have hfst : f (lo + (i : ℚ) * inc + inc) = f (lo + (j : ℚ) * inc + inc) := by
      simpa using congrArg Prod.fst hkeq
    rw [← hstep i, ← hstep j] at hfst
    rcases Nat.lt_trichotomy i j with h' | h' | h'
    · exact absurd hfst (ne_of_gt (hchain (i + 1) (j + 1) (by omega) (by omega)))
    · exact hne' h'
    · exact absurd hfst (ne_of_lt (hchain (j + 1) (i + 1) (by omega) (by omega)))
  rcases eq_or_lt_of_le hyb.2 with heqv | hltv
  · -- knot case: the forward value equals f at the left endpoint of slice i0
    have hx0 : x = lo + (i0 : ℚ) * inc := by
      have hexp := evalLinearFunction_fwdEntry_expand f inc (lo + (i0 : ℚ) * inc) x hincne
      rw [heqv] at hexp
      have hzero : (f (lo + (i0 : ℚ) * inc + inc) - f (lo + (i0 : ℚ) * inc)) / inc *
          (x - (lo + (i0 : ℚ) * inc)) = 0 := by linarith
      rcases mul_eq_zero.mp hzero with hz | hz
      · exact absurd hz (div_ne_zero hsne hincne)
      · linarith [sub_eq_zero.mp hz]
    have hi0pos : 0 < i0 := by
      rcases Nat.eq_zero_or_pos i0 with h0 | h0
      · subst h0
        simp only [Nat.cast_zero, zero_mul, add_zero] at hx0
        linarith
      · exact h0
    have hc1 : ((i0 - 1 : ℕ) : ℚ) = (i0 : ℚ) - 1 := by
      rw [Nat.cast_sub hi0pos, Nat.cast_one]
    have hprev : lo + ((i0 - 1 : ℕ) : ℚ) * inc + inc = lo + (i0 : ℚ) * inc := by
      rw [hc1]
      ring
    have hmem : invEntry f inc (lo + ((i0 - 1 : ℕ) : ℚ) * inc) ∈
        (FunctionToPiecewise.construct f n (lo, hi)).f_of_y_fns :=
      invEntry_mem_construct f n lo hi inc (i0 - 1) hn hlohi hincdef (by omega)
        (hkeydist (i0 - 1) (by omega))
    have hsne' : f (lo + ((i0 - 1 : ℕ) : ℚ) * inc + inc) -
        f (lo + ((i0 - 1 : ℕ) : ℚ) * inc) ≠ 0 :=
      ne_of_lt (sub_neg.mpr (hadj (i0 - 1) (by omega)))
    have hsome : ∃ fn, ((FunctionToPiecewise.construct f n (lo, hi)).f_of_y_fns.find?
        (fun fn => inHalfOpen fn.1
          (evalLinearFunction x (fwdEntry f inc (lo + (i0 : ℚ) * inc)).2))) =
        some fn := by
      rw [← Option.isSome_iff_exists, List.find?_isSome]
      refine ⟨_, hmem, ?_⟩
      rw [hkeyi (i0 - 1) (by omega)]
      simp only [inHalfOpen, decide_eq_true_eq, ge_iff_le]
      constructor
      · rw [hprev, heqv]
      · rw [heqv]
        have h := hadj (i0 - 1) (by omega)
        rw [hprev] at h
        exact h
    obtain ⟨fn, hfn⟩ := hsome
    have hfnpred := List.find?_some hfn
    obtain ⟨i, hiN, hieq⟩ := construct_f_of_y_fns_subset f n lo hi inc hn hlohi hincdef
      (List.mem_of_find?_eq_some hfn)
    subst hieq
    rw [hkeyi i hiN] at hfnpred
    simp only [inHalfOpen, decide_eq_true_eq, ge_iff_le] at hfnpred
    rw [heqv] at hfnpred
    have hieq2 : i = i0 - 1 := by
      rcases Nat.lt_trichotomy i (i0 - 1) with h' | h' | h'
      · have hgt : f (lo + (i0 : ℚ) * inc) < f (lo + ((i + 1 : ℕ) : ℚ) * inc) :=
          hchain (i + 1) i0 (by omega) (by omega)
        rw [hstep i] at hgt
        linarith [hfnpred.1]
      · exact h'
      · have hge : f (lo + (i : ℚ) * inc) ≤ f (lo + (i0 : ℚ) * inc) :=
          hchain_le i0 i (by omega) (by omega)
        linarith [hfnpred.2]
    subst hieq2
    unfold FunctionToPiecewise.yTox
    rw [hfn]
    show some (evalLinearFunction
        (evalLinearFunction x (fwdEntry f inc (lo + (i0 : ℚ) * inc)).2)
        (invEntry f inc (lo + ((i0 - 1 : ℕ) : ℚ) * inc)).2) = some x
    rw [heqv, ← hprev]
    have hcancel : evalLinearFunction (f (lo + ((i0 - 1 : ℕ) : ℚ) * inc + inc))
        (invEntry f inc (lo + ((i0 - 1 : ℕ) : ℚ) * inc)).2 =
        lo + ((i0 - 1 : ℕ) : ℚ) * inc + inc := by
      have h := inv_cancel_fwdEntry f inc (lo + ((i0 - 1 : ℕ) : ℚ) * inc)
        (lo + ((i0 - 1 : ℕ) : ℚ) * inc + inc) hincne hsne'
      rw [evalLinearFunction_fwdEntry_right f inc _ hincne] at h
      exact h
    rw [hcancel, hprev, ← hx0]
  · -- interior case: the query value lies strictly inside slice i0's y-range
    have hmem : invEntry f inc (lo + (i0 : ℚ) * inc) ∈
        (FunctionToPiecewise.construct f n (lo, hi)).f_of_y_fns :=
      invEntry_mem_construct f n lo hi inc i0 hn hlohi hincdef hi0N
        (hkeydist i0 hi0N)
    have hsome : ∃ fn, ((FunctionToPiecewise.construct f n (lo, hi)).f_of_y_fns.find?
        (fun fn => inHalfOpen fn.1
          (evalLinearFunction x (fwdEntry f inc (lo + (i0 : ℚ) * inc)).2))) =
        some fn := by
      rw [← Option.isSome_iff_exists, List.find?_isSome]
      refine ⟨_, hmem, ?_⟩
      rw [hkeyi i0 hi0N]
      simp only [inHalfOpen, decide_eq_true_eq, ge_iff_le]
      exact ⟨hyb.1.le, hltv⟩
    obtain ⟨fn, hfn⟩ := hsome
    have hfnpred := List.find?_some hfn
    obtain ⟨i, hiN, hieq⟩ := construct_f_of_y_fns_subset f n lo hi inc hn hlohi hincdef
      (List.mem_of_find?_eq_some hfn)
    subst hieq
    rw [hkeyi i hiN] at hfnpred
    simp only [inHalfOpen, decide_eq_true_eq, ge_iff_le] at hfnpred
    have hii0 : i = i0 := by
      rcases Nat.lt_trichotomy i i0 with h' | h' | h'
      · have hge : f (lo + ((i0 : ℚ)) * inc) ≤ f (lo + ((i + 1 : ℕ) : ℚ) * inc) :=
          hchain_le (i + 1) i0 (by omega) (by omega)
        rw [hstep i] at hge
        linarith [hfnpred.1, hltv]
      · exact h'
      · have hge : f (lo + (i : ℚ) * inc) ≤ f (lo + ((i0 + 1 : ℕ) : ℚ) * inc) :=
          hchain_le (i0 + 1) i (by omega) (by omega)
        rw [hstep i0] at hge
        linarith [hfnpred.2, hyb.1]
    subst hii0
    unfold FunctionToPiecewise.yTox
    rw [hfn]
    show some (evalLinearFunction
        (evalLinearFunction x (fwdEntry f inc (lo + (i : ℚ) * inc)).2)
        (invEntry f inc (lo + (i : ℚ) * inc)).2) = some x
    exact congrArg some (inv_cancel_fwdEntry f inc _ x hincne hsne)

/-- C3 counterexample: source f with samples f(0)=0, f(1)=3, f(2)=5, f(3)=1
(n = 3 over (0,3)); f is exactly linear (2x+1) on the slice [1,2] containing
x = 3/2, whose forward slope is 2 ≠ 0, so the claim demands the round trip
return exactly 3/2.  Instead the inverse lookup at y = 4 selects the
overlapping inverse segment of the third slice and returns 9/4 ≠ 3/2. -/
theorem c3_counterexample :
    (fwdEntry
        (fun x : ℚ => if x ≤ 1 then 3 * x else if x ≤ 2 then 2 * x + 1 else 13 - 4 * x)
        1 1).2.slope = 2 ∧
    ((FunctionToPiecewise.construct
        (fun x : ℚ => if x ≤ 1 then 3 * x else if x ≤ 2 then 2 * x + 1 else 13 - 4 * x)
        3 (0, 3)).xToy (3 / 2)).bind
      (FunctionToPiecewise.construct
        (fun x : ℚ => if x ≤ 1 then 3 * x else if x ≤ 2 then 2 * x + 1 else 13 - 4 * x)
        3 (0, 3)).yTox = some (9 / 4) ∧
    (9 / 4 : ℚ) ≠ 3 / 2 := by
  refine ⟨by norm_num [fwdEntry, getLineFuncSlope], ?_, by norm_num⟩
  norm_num [FunctionToPiecewise.construct, FunctionToPiecewise.xToy,
    FunctionToPiecewise.yTox, buildFwdLoop, buildInvLoop, fwdEntry, invEntry,
    mapInsert, getLineFuncSlope, getLineFuncYInt, evalLinearFunction, inHalfOpen,
    List.find?, Option.bind, pairLt]

/-- C3 amended: for every approximator with `n ≥ 1` segments over `(lo, hi)`,
`lo < hi`, whose sampled values are strictly monotonic (increasing or
decreasing) over the construction grid, and every `x` strictly inside the
interval, composing the inverse query after the forward query returns exactly
`x`.  (Each forward slope is then nonzero; without monotonicity the inverse
lookup may select an overlapping segment from a different slice and the round
trip can miss `x` even where the source is linear on the containing slice.) -/
theorem c3_round_trip_monotone (f : ℚ → ℚ) (n : ℤ) (lo hi x : ℚ)
    (hn : 1 ≤ n) (hlohi : lo < hi)
    (hmono :
      (∀ i : ℕ, i + 1 ≤ n.toNat →
        f (lo + (i : ℚ) * ((hi - lo) / (n : ℚ))) <
          f (lo + (i : ℚ) * ((hi - lo) / (n : ℚ)) + (hi - lo) / (n : ℚ))) ∨
      (∀ i : ℕ, i + 1 ≤ n.toNat →
        f (lo + (i : ℚ) * ((hi - lo) / (n : ℚ)) + (hi - lo) / (n : ℚ)) <
          f (lo + (i : ℚ) * ((hi - lo) / (n : ℚ)))))
    (hx1 : lo < x) (hx2 : x < hi) :
    ((FunctionToPiecewise.construct f n (lo, hi)).xToy x).bind
      (FunctionToPiecewise.construct f n (lo, hi)).yTox = some x := by
  have hnq : (0 : ℚ) < (n : ℚ) := by exact_mod_cast lt_of_lt_of_le zero_lt_one hn
  have hinc : 0 < (hi - lo) / (n : ℚ) := div_pos (by linarith) hnq
  have hcast : ((n.toNat : ℕ) : ℚ) = (n : ℚ) := by
    have h := Int.toNat_of_nonneg (le_trans zero_le_one hn)
    exact_mod_cast congrArg (fun z : ℤ => (z : ℚ)) h
  have hne : (n : ℚ) ≠ 0 := ne_of_gt hnq
  have hhiN : hi = lo + ((n.toNat : ℕ) : ℚ) * ((hi - lo) / (n : ℚ)) := by
    rw [hcast]
    field_simp
  have hx2' : x < lo + ((n.toNat : ℕ) : ℚ) * ((hi - lo) / (n : ℚ)) := by
    rw [← hhiN]
    exact hx2
  obtain ⟨i0, hi0N, hi0l, hi0r⟩ := index_exists hinc hx1.le hx2'
  rw [xToy_construct_eq f n lo hi _ x i0 hn hlohi rfl hi0N hi0l hi0r]
  show (FunctionToPiecewise.construct f n (lo, hi)).yTox
      (evalLinearFunction x
        (fwdEntry f ((hi - lo) / (n : ℚ))
          (lo + (i0 : ℚ) * ((hi - lo) / (n : ℚ)))).2) = some x
  rcases hmono with hup | hdn
  · exact yTox_roundtrip_increasing f n lo hi _ x i0 hn hlohi rfl hup hi0N hi0l hi0r
  · exact yTox_roundtrip_decreasing f n lo hi _ x i0 hn hlohi rfl hdn hx1 hi0N hi0l hi0r

/-- Witness for the amended C3 at a concrete input. -/
theorem c3_round_trip_monotone_witness :
    ((FunctionToPiecewise.construct (fun t => t) 2 (0, 4)).xToy 1).bind
      (FunctionToPiecewise.construct (fun t => t) 2 (0, 4)).yTox = some 1 :=
  c3_round_trip_monotone (fun t => t) 2 0 4 1 (by norm_num) (by norm_num)
    (Or.inl (by intro i hi; norm_num)) (by norm_num) (by norm_num)

/-! ### Claims C8 and C9: the inverse segment construction -/

lemma invEntry_key_minmax (f : ℚ → ℚ) (inc x : ℚ) (h : f x ≠ f (x + inc)) :
    (invEntry f inc x).1 =
      (min (f x) (f (x + inc)), max (f x) (f (x + inc))) := by
  rcases h.lt_or_lt with hlt | hgt
  · rw [invEntry_key_of_lt f inc x hlt, min_eq_left hlt.le, max_eq_right hlt.le]
  · rw [invEntry_key_of_gt f inc x hgt, min_eq_right hgt.le, max_eq_left hgt.le]

/-- C8: for a flat slice (f(x0) = f(x1)) the code divides by the zero forward
slope with no guard and raises no error: for the constant function 1 with one
segment over (0,1) the forward slope of the slice is 0, the stored inverse
slope is computed as `1 / slope` with that zero divisor, and construction
still completes, inserting one inverse entry rather than omitting the flat
segment or failing.  (In the C++ this is a silent IEEE division by zero
yielding infinity, and the range key pair is read uninitialized.) -/
theorem c8_flat_segment_division :
    getLineFuncSlope ⟨0, (fun _ : ℚ => (1 : ℚ)) 0⟩ ⟨1, (fun _ : ℚ => (1 : ℚ)) 1⟩ = 0 ∧
    (fwdEntry (fun _ : ℚ => (1 : ℚ)) 1 0).2.slope = 0 ∧
    (invEntry (fun _ : ℚ => (1 : ℚ)) 1 0).2.slope =
      1 / (fwdEntry (fun _ : ℚ => (1 : ℚ)) 1 0).2.slope ∧
    ((FunctionToPiecewise.construct (fun _ : ℚ => (1 : ℚ)) 1 (0, 1)).f_of_y_fns).length
      = 1 := by
  refine ⟨by norm_num [getLineFuncSlope], by norm_num [fwdEntry, getLineFuncSlope],
    rfl, ?_⟩
  norm_num [FunctionToPiecewise.construct, buildInvLoop, invEntry, mapInsert,
    getLineFuncSlope, getLineFuncYInt]

/-- C9 counterexample: the inverse segment of a slice with y0 ≠ y1 need not be
stored: for f = |x - 1| with two slices over (0,2), the second slice has
y0 = 0 ≠ 1 = y1 and inverse coefficients slope 1, intercept 1 under range key
(0,1); but the first slice already inserted key (0,1), and `std::map::insert`
keeps the first entry, so the second slice's inverse segment is absent. -/
theorem c9_counterexample :
    (FunctionToPiecewise.construct
        (fun x : ℚ => if x ≤ 1 then 1 - x else x - 1) 2 (0, 2)).f_of_y_fns =
      [((0, 1), { slope := -1, yint := 1 })] ∧
    ((0, 1), ({ slope := 1, yint := 1 } : LineFunc)) ∉
      (FunctionToPiecewise.construct
        (fun x : ℚ => if x ≤ 1 then 1 - x else x - 1) 2 (0, 2)).f_of_y_fns := by
  have htbl : (FunctionToPiecewise.construct
      (fun x : ℚ => if x ≤ 1 then 1 - x else x - 1) 2 (0, 2)).f_of_y_fns =
      [((0, 1), { slope := -1, yint := 1 })] := by
    norm_num [FunctionToPiecewise.construct, buildInvLoop, invEntry, mapInsert,
      getLineFuncSlope, getLineFuncYInt, pairLt]
  refine ⟨htbl, ?_⟩
  rw [htbl]
  simp only [List.mem_singleton, Prod.mk.injEq, LineFunc.mk.injEq]
  norm_num

/-- C9 amended: for every slice `j` with `y0 = f(x0) ≠ f(x1) = y1`, *provided
no other slice produces the same range key* (the map keeps only the first
entry per key), the inverse table stores the entry for slice `j` under the
range key `[min(y0,y1), max(y0,y1))`, with slope `1/slope` and intercept
`-intercept/slope` where `(slope, intercept)` are the slice's forward
coefficients. -/
theorem c9_inverse_segment (f : ℚ → ℚ) (n : ℤ) (lo hi : ℚ) (j : ℕ)
    (hn : 1 ≤ n) (hlohi : lo < hi) (hj : j < n.toNat)
    (hy : f (lo + (j : ℚ) * ((hi - lo) / (n : ℚ))) ≠
      f (lo + (j : ℚ) * ((hi - lo) / (n : ℚ)) + (hi - lo) / (n : ℚ)))
    (hfresh : ∀ i : ℕ, i < n.toNat → i ≠ j →
      (invEntry f ((hi - lo) / (n : ℚ)) (lo + (i : ℚ) * ((hi - lo) / (n : ℚ)))).1 ≠
        (invEntry f ((hi - lo) / (n : ℚ)) (lo + (j : ℚ) * ((hi - lo) / (n : ℚ)))).1) :
    invEntry f ((hi - lo) / (n : ℚ)) (lo + (j : ℚ) * ((hi - lo) / (n : ℚ))) ∈
      (FunctionToPiecewise.construct f n (lo, hi)).f_of_y_fns ∧
    (invEntry f ((hi - lo) / (n : ℚ)) (lo + (j : ℚ) * ((hi - lo) / (n : ℚ)))).1 =
      (min (f (lo + (j : ℚ) * ((hi - lo) / (n : ℚ))))
         (f (lo + (j : ℚ) * ((hi - lo) / (n : ℚ)) + (hi - lo) / (n : ℚ))),
       max (f (lo + (j : ℚ) * ((hi - lo) / (n : ℚ))))
         (f (lo + (j : ℚ) * ((hi - lo) / (n : ℚ)) + (hi - lo) / (n : ℚ)))) ∧
    (invEntry f ((hi - lo) / (n : ℚ)) (lo + (j : ℚ) * ((hi - lo) / (n : ℚ)))).2.slope =
      1 / (fwdEntry f ((hi - lo) / (n : ℚ))
        (lo + (j : ℚ) * ((hi - lo) / (n : ℚ)))).2.slope ∧
    (invEntry f ((hi - lo) / (n : ℚ)) (lo + (j : ℚ) * ((hi - lo) / (n : ℚ)))).2.yint =
      -(fwdEntry f ((hi - lo) / (n : ℚ))
          (lo + (j : ℚ) * ((hi - lo) / (n : ℚ)))).2.yint /
        (fwdEntry f ((hi - lo) / (n : ℚ))
          (lo + (j : ℚ) * ((hi - lo) / (n : ℚ)))).2.slope := by
  refine ⟨invEntry_mem_construct f n lo hi _ j hn hlohi rfl hj hfresh,
    invEntry_key_minmax f _ _ hy, rfl, ?_⟩
  simp only [invEntry, fwdEntry]
  ring

/-- Witness for the amended C9 at a concrete input. -/
theorem c9_inverse_segment_witness :
    invEntry (fun t => t) ((1 - 0) / ((1 : ℤ) : ℚ))
        (0 + ((0 : ℕ) : ℚ) * ((1 - 0) / ((1 : ℤ) : ℚ))) ∈
      (FunctionToPiecewise.construct (fun t => t) 1 (0, 1)).f_of_y_fns ∧
    (invEntry (fun t => t) ((1 - 0) / ((1 : ℤ) : ℚ))
        (0 + ((0 : ℕ) : ℚ) * ((1 - 0) / ((1 : ℤ) : ℚ)))).1 =
      (min ((fun t : ℚ => t) (0 + ((0 : ℕ) : ℚ) * ((1 - 0) / ((1 : ℤ) : ℚ))))
         ((fun t : ℚ => t) (0 + ((0 : ℕ) : ℚ) * ((1 - 0) / ((1 : ℤ) : ℚ)) +
           (1 - 0) / ((1 : ℤ) : ℚ))),
       max ((fun t : ℚ => t) (0 + ((0 : ℕ) : ℚ) * ((1 - 0) / ((1 : ℤ) : ℚ))))
         ((fun t : ℚ => t) (0 + ((0 : ℕ) : ℚ) * ((1 - 0) / ((1 : ℤ) : ℚ)) +
           (1 - 0) / ((1 : ℤ) : ℚ)))) ∧
    (invEntry (fun t => t) ((1 - 0) / ((1 : ℤ) : ℚ))
        (0 + ((0 : ℕ) : ℚ) * ((1 - 0) / ((1 : ℤ) : ℚ)))).2.slope =
      1 / (fwdEntry (fun t => t) ((1 - 0) / ((1 : ℤ) : ℚ))
        (0 + ((0 : ℕ) : ℚ) * ((1 - 0) / ((1 : ℤ) : ℚ)))).2.slope ∧
    (invEntry (fun t => t) ((1 - 0) / ((1 : ℤ) : ℚ))
        (0 + ((0 : ℕ) : ℚ) * ((1 - 0) / ((1 : ℤ) : ℚ)))).2.yint =
      -(fwdEntry (fun t => t) ((1 - 0) / ((1 : ℤ) : ℚ))
          (0 + ((0 : ℕ) : ℚ) * ((1 - 0) / ((1 : ℤ) : ℚ)))).2.yint /
        (fwdEntry (fun t => t) ((1 - 0) / ((1 : ℤ) : ℚ))
          (0 + ((0 : ℕ) : ℚ) * ((1 - 0) / ((1 : ℤ) : ℚ)))).2.slope :=
  c9_inverse_segment (fun t => t) 1 0 1 0 (by norm_num) (by norm_num) (by norm_num)
    (by norm_num) (by intro i hilt hine; exact (hine (by omega)).elim)

/-- Witness for the amended C2 at a concrete input. -/
theorem c2_linear_exactness_witness :
    (FunctionToPiecewise.construct (fun t => 2 * t + 1) 2 (0, 4)).xToy 3 =
      some (2 * 3 + 1) ∧
    (((0 : ℚ) < 2 ∨ (0 : ℚ) < 3) →
      (FunctionToPiecewise.construct (fun t => 2 * t + 1) 2 (0, 4)).yTox
        (2 * 3 + 1) = some 3) ∧
    ((2 : ℚ) < 0 →
      (FunctionToPiecewise.construct (fun t => 2 * t + 1) 2 (0, 4)).yTox
        (2 * 0 + 1) = none) :=
  c2_linear_exactness 2 1 2 0 4 3 (by norm_num) (by norm_num) (by norm_num)
    (by norm_num) (by norm_num)
